import Mathlib

/-!
Verification of the terminal result-display core of this repository:
adaptive truncation of long text (`ToolResultDisplay.tsx`), trailing-window
selection of styled lines (`AnsiOutput.tsx`), URL segmentation
(`LinkifiedText.tsx`, `urlUtils.ts`) and the result dispatcher.

Strings are shallowly embedded as `List Char`; JS numbers that are only
ever non-negative naturals in the relevant code paths are embedded as `Nat`
(with JS truthiness of `0` and `undefined` made explicit where the code
relies on it).
-/

/- ### Constants from ToolResultDisplay.tsx -/

/-- Source constant `STATIC_HEIGHT = 1` (ToolResultDisplay.tsx line 18). -/
def STATIC_HEIGHT : Nat := 1

/-- Source constant `RESERVED_LINE_COUNT = 5` (ToolResultDisplay.tsx line 19). -/
def RESERVED_LINE_COUNT : Nat := 5

/-- Source constant `MINIMUM_MAX_HEIGHT = 2` (ToolResultDisplay.tsx line 20). -/
def MINIMUM_MAX_HEIGHT : Nat := 2

/-- Source constant `MAXIMUM_RESULT_DISPLAY_CHARACTERS = 20000`
(ToolResultDisplay.tsx line 24). -/
def MAXIMUM_RESULT_DISPLAY_CHARACTERS : Nat := 20000

/-- Source constant `combinedPaddingAndBorderWidth = 4`
(ToolResultDisplay.tsx line 61). -/
def combinedPaddingAndBorderWidth : Nat := 4

/-- The three-character elision marker. -/
def elisionChars : List Char := ['.', '.', '.']

/- ### Step 1: the character cap (ToolResultDisplay.tsx lines 66-69)

`if (text.length > MAXIMUM_RESULT_DISPLAY_CHARACTERS) text = '...' + text.slice(-MAXIMUM_RESULT_DISPLAY_CHARACTERS)`;
`s.slice(-n)` for `0 < n <= s.length` keeps the last `n` characters. -/

/-- Embedding of the character-cap step of `truncatedResultDisplay`. -/
def charCap (text : List Char) : List Char :=
  if MAXIMUM_RESULT_DISPLAY_CHARACTERS < text.length then
    elisionChars ++ text.drop (text.length - MAXIMUM_RESULT_DISPLAY_CHARACTERS)
  else
    text

/- ### Line splitting: `text.split('\n')` -/

/-- Embedding of JS `text.split('\n')`: splits on every newline, keeping
empty pieces, so the result is always non-empty. -/
def splitLines : List Char → List (List Char)
  | [] => [[]]
  | c :: cs =>
    match splitLines cs with
    | [] => [[]]
    | l :: ls => if c = '\n' then [] :: l :: ls else (c :: l) :: ls

/-- Embedding of JS `lines.join('\n')` on a list of lines. -/
def joinLines : List (List Char) → List Char
  | [] => []
  | [l] => l
  | l :: ls => l ++ '\n' :: joinLines ls

/- ### Visual height estimation (ToolResultDisplay.tsx lines 84-86)

`Math.ceil(Math.max(1, line.length) / childWidth)`; for naturals with
`0 < w`, `ceil (a / w) = (a + w - 1) / w`. -/

/-- Embedding of the per-line visual height estimate
`Math.ceil(Math.max(1, lineLength) / childWidth)`. -/
def lineVisualHeight (lineLength width : Nat) : Nat :=
  (max 1 lineLength + width - 1) / width

/-- Total estimated visual rows of a list of lines at a given width
(per-line heights per `lineVisualHeight`, summed). -/
def visualRows (width : Nat) (lines : List (List Char)) : Nat :=
  (lines.map (fun l => lineVisualHeight l.length width)).sum

/- ### The backwards line-fitting loop (ToolResultDisplay.tsx lines 76-94)

The loop walks `lines` from the last to the first, accumulating
`lineVisualHeight` and breaking on the first line that would push the
accumulated height over `availableHeight`; `takeRows` computes, on the
reversed list of lines, how many lines the loop accepted. -/

/-- Number of lines (given last-first, i.e. on the reversed line list) that
the backwards loop of `truncatedResultDisplay` accepts before breaking,
starting from accumulated height `cur`. -/
def takeRows (width budget cur : Nat) : List (List Char) → Nat
  | [] => 0
  | l :: ls =>
    let h := lineVisualHeight l.length width
    if budget < cur + h then 0
    else 1 + takeRows width budget (cur + h) ls

/-- Embedding of the line-aware truncation step (ToolResultDisplay.tsx
lines 74-99): keep the longest suffix of lines that fits `budget`,
prepending the elision line `"...\n"` iff any leading line was dropped. -/
def lineTruncate (width budget : Nat) (text : List Char) : List Char :=
  let lines := splitLines text
  let k := takeRows width budget 0 lines.reverse
  if k < lines.length then
    ['.', '.', '.', '\n'] ++ joinLines (lines.drop (lines.length - k))
  else
    text

/- ### The derived height budget (ToolResultDisplay.tsx lines 47-52)

`availableTerminalHeight ? Math.max(availableTerminalHeight - STATIC_HEIGHT - RESERVED_LINE_COUNT, MINIMUM_MAX_HEIGHT + 1) : undefined`;
JS truthiness makes `0` behave like `undefined`.  Natural subtraction
truncates at `0` exactly where the JS value would be negative, and the
outer `max _ 3` makes the two agree. -/

/-- Embedding of the derived `availableHeight` value. -/
def derivedAvailableHeight (availableTerminalHeight : Option Nat) : Option Nat :=
  match availableTerminalHeight with
  | none => none
  | some ath =>
    if ath = 0 then none
    else some (max (ath - STATIC_HEIGHT - RESERVED_LINE_COUNT) (MINIMUM_MAX_HEIGHT + 1))

/- ### The full string pipeline (ToolResultDisplay.tsx lines 47-103)

For a string payload: character cap, then line-aware truncation gated on
`availableHeight && !isAlternateBuffer`.  The derived `availableHeight` is
never `0` when present, so its JS truthiness test is just presence. -/

/-- Embedding of the `truncatedResultDisplay` memo for a string payload,
taking the component inputs (`availableTerminalHeight`, `terminalWidth`,
`isAlternateBuffer`) and applying the derivations of lines 47-62. -/
def truncatedResultDisplayStr (resultDisplay : List Char)
    (availableTerminalHeight : Option Nat) (terminalWidth : Nat)
    (isAlternateBuffer : Bool) : List Char :=
  let childWidth := terminalWidth - combinedPaddingAndBorderWidth
  let text := charCap resultDisplay
  match derivedAvailableHeight availableTerminalHeight, isAlternateBuffer with
  | some budget, false => lineTruncate childWidth budget text
  | _, _ => text

/- ### URL regex of LinkifiedText.tsx line 18 / AnsiOutput.tsx line 21

`const URL_REGEX = /(https?:\/\/[^\s)]+)/g` — a scheme followed by a
greedy, non-empty run of characters that are neither whitespace nor a
closing parenthesis. -/

/-- JS `\s` on the character set these inputs range over: space, tab,
newline, carriage return, vertical tab, form feed. -/
def isJsWhitespace (c : Char) : Bool :=
  c = ' ' || c = '\t' || c = '\n' || c = '\r' || c = Char.ofNat 11 || c = Char.ofNat 12

/-- Character class `[^\s)]` of the LinkifiedText / AnsiOutput URL regex. -/
def isUrlBodyChar (c : Char) : Bool :=
  !(isJsWhitespace c) && c ≠ ')'

/-- Match of `https?:\/\/[^\s)]+` anchored at the front of the input:
returns the (greedy) match and the remainder.  The `s?` branch needs no
backtracking: when the fifth character is `s` but `://` does not follow,
the no-`s` alternative fails as well. -/
def matchUrlAt (s : List Char) : Option (List Char × List Char) :=
  match s with
  | 'h' :: 't' :: 't' :: 'p' :: 's' :: ':' :: '/' :: '/' :: r =>
    if (r.takeWhile isUrlBodyChar).isEmpty then none
    else some (['h', 't', 't', 'p', 's', ':', '/', '/'] ++ r.takeWhile isUrlBodyChar,
               r.dropWhile isUrlBodyChar)
  | 'h' :: 't' :: 't' :: 'p' :: ':' :: '/' :: '/' :: r =>
    if (r.takeWhile isUrlBodyChar).isEmpty then none
    else some (['h', 't', 't', 'p', ':', '/', '/'] ++ r.takeWhile isUrlBodyChar,
               r.dropWhile isUrlBodyChar)
  | _ => none

/- ### Strict URL regex (current urlUtils, LinkifiedText.tsx lines 62-63)

`/(https?:\/\/[a-zA-Z0-9-._~:/?#[\]@!$&'()*+,;=%]+[a-zA-Z0-9-_~/?#[\]@!$&'(*+=%])/i`
— an RFC 3986 character run that must end on a "safe terminator"
character (the same set minus `. : ) , ;`). -/

/-- Punctuation of the first (allowed URL character) class of the strict
regex, besides alphanumerics.  `Char.ofNat 39` is the apostrophe. -/
def urlExtraChars : List Char :=
  ['-', '.', '_', '~', ':', '/', '?', '#', '[', ']', '@', '!', '$', '&',
   Char.ofNat 39, '(', ')', '*', '+', ',', ';', '=', '%']

/-- First character class of the strict regex. -/
def isUrlChar (c : Char) : Bool :=
  c.isAlphanum || urlExtraChars.contains c

/-- Punctuation of the final (safe terminator) class of the strict regex,
besides alphanumerics. -/
def safeTermExtraChars : List Char :=
  ['-', '_', '~', '/', '?', '#', '[', ']', '@', '!', '$', '&',
   Char.ofNat 39, '(', '*', '+', '=', '%']

/-- Final (safe terminator) character class of the strict regex. -/
def isSafeTermChar (c : Char) : Bool :=
  c.isAlphanum || safeTermExtraChars.contains c

/-- Strip a (lowercase) pattern from the front of the input,
case-insensitively (the strict regex carries the `i` flag). -/
def stripCI : List Char → List Char → Option (List Char)
  | [], s => some s
  | p :: ps, c :: cs => if c.toLower = p then stripCI ps cs else none
  | _ :: _, [] => none

/-- Length of the scheme part `https?:\/\/` matched case-insensitively at
the front of the input, if any. -/
def strictSchemeLen (s : List Char) : Option Nat :=
  match stripCI ['h', 't', 't', 'p', 's', ':', '/', '/'] s with
  | some _ => some 8
  | none =>
    match stripCI ['h', 't', 't', 'p', ':', '/', '/'] s with
    | some _ => some 7
    | none => none

/-- After the scheme (of length `n`), the greedy run of allowed URL
characters cut back to its longest prefix ending on a safe-terminator
character, mirroring the backtracking of `C1+ C2`. -/
def strictKeep (s : List Char) (n : Nat) : List Char :=
  (((s.drop n).takeWhile isUrlChar).reverse.dropWhile (fun c => !(isSafeTermChar c))).reverse

/-- Match of the strict regex anchored at the front of the input: the
scheme followed by the cut-back run, which must still have length at
least two (`C1+` needs one character and `C2` one more). -/
def matchStrictAt (s : List Char) : Option (List Char × List Char) :=
  match strictSchemeLen s with
  | none => none
  | some n =>
    if 2 ≤ (strictKeep s n).length then
      some (s.take (n + (strictKeep s n).length), s.drop (n + (strictKeep s n).length))
    else none

/- ### Leftmost-match search and `String.prototype.split`

JS `split` on a regex whose single capture group spans the whole pattern
interleaves the unmatched pieces with the captured matches, keeping empty
pieces.  The search and the splitter are parametric in the anchored
matcher so that both URL regexes instantiate them. -/

/-- Leftmost match: scan start positions left to right, returning
`(pre, match, rest)` for the first position where the anchored matcher
succeeds. -/
def findFirstMatchWith (matchAt : List Char → Option (List Char × List Char)) :
    List Char → Option (List Char × List Char × List Char)
  | [] => none
  | c :: cs =>
    match matchAt (c :: cs) with
    | some (m, rest) => some ([], m, rest)
    | none =>
      match findFirstMatchWith matchAt cs with
      | some (pre, m, rest) => some (c :: pre, m, rest)
      | none => none

/-- Fuelled splitter: emit the piece before each leftmost match, the match
itself, and recurse on the remainder.  The fuel only serves totality; any
fuel at least the input length computes the splitter (every match is
non-empty, so the remainder shrinks). -/
def splitWithFuel (matchAt : List Char → Option (List Char × List Char)) :
    Nat → List Char → List (List Char)
  | 0, s => [s]
  | fuel + 1, s =>
    match findFirstMatchWith matchAt s with
    | none => [s]
    | some (pre, m, rest) => pre :: m :: splitWithFuel matchAt fuel rest

/-- Embedding of `s.split(regex)` for a regex with a single whole-pattern
capture group, parametric in the anchored matcher. -/
def splitWith (matchAt : List Char → Option (List Char × List Char))
    (s : List Char) : List (List Char) :=
  splitWithFuel matchAt s.length s

/-- Leftmost match of the LinkifiedText / AnsiOutput URL regex. -/
abbrev findFirstUrl : List Char → Option (List Char × List Char × List Char) :=
  findFirstMatchWith matchUrlAt

/-- Embedding of `children.split(URL_REGEX)` in LinkifiedText.tsx line 29
(and `token.text.split(URL_REGEX)` in AnsiOutput.tsx line 35). -/
abbrev splitUrl : List Char → List (List Char) :=
  splitWith matchUrlAt

/-- Embedding of `token.text.split(URL_REGEX)` with the strict regex, as
in the unnamed AnsiOutput revision (`src/unnamed/part_000` line 34). -/
abbrev splitUrlStrict : List Char → List (List Char) :=
  splitWith matchStrictAt

/-- Leftmost-match extraction with the strict regex (`text.match(URL_REGEX)`
of urlUtils): pre-match text, match, and remainder. -/
abbrev extractStrict : List Char → Option (List Char × List Char × List Char) :=
  findFirstMatchWith matchStrictAt

/- ### The stateful `URL_REGEX.test(part)` of LinkifiedText.tsx line 34

The regex carries the `g` flag, so `test` starts searching at the regex
object's `lastIndex`, sets it past the match on success and resets it to
`0` on failure.  The classification of the split parts threads this state
explicitly. -/

/-- Embedding of one `URL_REGEX.test(s)` call on the global regex with
current `lastIndex`: returns the verdict and the updated `lastIndex`. -/
def testG (lastIndex : Nat) (s : List Char) : Bool × Nat :=
  match findFirstUrl (s.drop lastIndex) with
  | some (pre, m, _) => (true, lastIndex + pre.length + m.length)
  | none => (false, 0)

/-- Classification pass of LinkifiedText.tsx lines 33-46: each split part
is tested with the shared stateful regex, in order. -/
def classifyParts (lastIndex : Nat) : List (List Char) → List (List Char × Bool)
  | [] => []
  | p :: ps =>
    let r := testG lastIndex p
    (p, r.1) :: classifyParts r.2 ps

/-- The segments LinkifiedText produces for an input string, given the
regex state left over from earlier invocations. -/
def linkifySegments (s : List Char) (initialLastIndex : Nat) : List (List Char × Bool) :=
  classifyParts initialLastIndex (splitUrl s)

/-- Stateless reading of the same segmentation: a part is a URL segment
iff the URL regex matches somewhere in it. -/
def segmentPure (s : List Char) : List (List Char × Bool) :=
  (splitUrl s).map (fun p => (p, (findFirstUrl p).isSome))

/- ### Styled lines and the trailing window (AnsiOutput.tsx lines 27-32)

The `AnsiToken` type comes from `@google/gemini-cli-core`, outside this
repository; its fields are modelled from the spec's StyledRun
(`{ text, fg?, bg?, bold, italic, underline, dim, inverse }`).  Colors are
opaque and embedded as naturals. -/

/-- Modelled from the spec: a styled run (`AnsiToken` of the core package,
which is not part of this repository's sources). -/
structure AnsiToken where
  text : List Char
  fg : Option Nat
  bg : Option Nat
  bold : Bool
  italic : Bool
  underline : Bool
  dim : Bool
  inverse : Bool
deriving DecidableEq

/-- A styled line: ordered runs, left to right. -/
abbrev AnsiLine := List AnsiToken

/-- Source constant `DEFAULT_HEIGHT = 24` (AnsiOutput.tsx line 12). -/
def DEFAULT_HEIGHT : Nat := 24

/-- Embedding of the window selection of `AnsiOutputText`:
`data.slice(-(availableTerminalHeight && availableTerminalHeight > 0 ? availableTerminalHeight : DEFAULT_HEIGHT))`.
The height is an `Option Int` so that absent, zero and negative inputs are
all expressible; `slice(-k)` for `k > 0` keeps the trailing
`min (data.length) k` lines. -/
def lastLines (data : List AnsiLine) (availableTerminalHeight : Option Int) :
    List AnsiLine :=
  let k : Nat :=
    match availableTerminalHeight with
    | some h => if 0 < h then h.toNat else DEFAULT_HEIGHT
    | none => DEFAULT_HEIGHT
  data.drop (data.length - k)

/- ### The result dispatcher (ToolResultDisplay.tsx lines 38-149) -/

/-- The payload shapes `ToolResultDisplay` discriminates between:
`undefined`, a string, an object with a `fileDiff` field, an object with a
`todos` field, an `AnsiOutput` array, or an object with none of those
shapes (e.g. the empty object `{}`). -/
inductive ResultPayload where
  | undef
  | str (s : List Char)
  | fileDiffObj (fileDiff fileName : List Char)
  | todosObj
  | ansiObj (data : List AnsiLine)
  | emptyObj
deriving DecidableEq

/-- JS truthiness of the (processed) payload, as tested by
`if (!truncatedResultDisplay) return null` (line 105): `undefined` and the
empty string are falsy; every object is truthy. -/
def jsFalsyPayload : ResultPayload → Bool
  | .undef => true
  | .str s => s.isEmpty
  | _ => false

/-- The render instruction the dispatcher hands to its collaborators.
`nothing` is the early `return null`; `todoEmpty` is the empty fragment of
the todos branch; `ansiRenderInvalid` records that a payload with none of
the recognized shapes is passed to `AnsiOutputText` as if it were a styled
document (where `data.slice` then throws at runtime). -/
inductive RenderInstruction where
  | nothing
  | markdown (text : List Char) (width : Nat)
  | plain (text : List Char) (width : Nat)
  | diff (content fileName : List Char) (availableHeight : Option Nat) (width : Nat)
  | ansiRender (data : List AnsiLine) (availableHeight : Option Nat) (width : Nat)
  | todoEmpty
  | ansiRenderInvalid
deriving DecidableEq

/-- Embedding of the dispatch of `ToolResultDisplay` (lines 38-149):
derive the height budget and `childWidth`, force markdown off when a
height budget applies outside the alternate buffer, run the string
pipeline, and route by the falsiness check followed by the shape checks,
in source order. -/
def dispatch (payload : ResultPayload) (availableTerminalHeight : Option Nat)
    (terminalWidth : Nat) (isAlternateBuffer : Bool)
    (renderOutputAsMarkdown : Bool) : RenderInstruction :=
  let availableHeight := derivedAvailableHeight availableTerminalHeight
  let renderMd :=
    if availableHeight.isSome && !isAlternateBuffer then false
    else renderOutputAsMarkdown
  let childWidth := terminalWidth - combinedPaddingAndBorderWidth
  let trd : ResultPayload :=
    match payload with
    | .str s =>
      .str (truncatedResultDisplayStr s availableTerminalHeight terminalWidth isAlternateBuffer)
    | p => p
  if jsFalsyPayload trd then .nothing
  else
    match trd with
    | .str s => if renderMd then .markdown s childWidth else .plain s childWidth
    | .fileDiffObj c f => .diff c f availableHeight childWidth
    | .todosObj => .todoEmpty
    | .ansiObj d => .ansiRender d availableHeight childWidth
    | .emptyObj => .ansiRenderInvalid
    | .undef => .nothing

/-- Soundness interface of an anchored matcher: a match is a non-empty
initial segment of the input, the remainder being returned alongside. -/
def MatcherSound (matchAt : List Char → Option (List Char × List Char)) : Prop :=
  ∀ s m r, matchAt s = some (m, r) → s = m ++ r ∧ m ≠ []

/-- Estimated visual rows of the last `k` lines (the lines the backwards
loop walks first). -/
def heightSumLastK (width : Nat) (lines : List (List Char)) (k : Nat) : Nat :=
  visualRows width (lines.reverse.take k)

/-- Twenty single-word lines, as in the height-bounded truncation example
of the spec (§8) and the component test. -/
def exampleLines20 : List (List Char) :=
  ["line01".toList, "line02".toList, "line03".toList, "line04".toList,
   "line05".toList, "line06".toList, "line07".toList, "line08".toList,
   "line09".toList, "line10".toList, "line11".toList, "line12".toList,
   "line13".toList, "line14".toList, "line15".toList, "line16".toList,
   "line17".toList, "line18".toList, "line19".toList, "line20".toList]

/-- The twenty example lines joined by line breaks. -/
def exampleText20 : List Char := joinLines exampleLines20

/-- The three-line wrap-accounting example of the spec (§8). -/
def exampleWrapText : List Char :=
  joinLines ["Short".toList, "12345678901234567890".toList, "End".toList]

example : charCap "abc".toList = "abc".toList := by decide

example :
    lineTruncate 6 5 ("Short".toList ++ '\n' :: "12345678901234567890".toList ++ '\n' :: "End".toList)
      = ('.' :: '.' :: '.' :: '\n' :: "12345678901234567890".toList ++ '\n' :: "End".toList) := by
  decide

example : lineVisualHeight 20 6 = 4 := by decide

example :
    truncatedResultDisplayStr ("a\nb\nc\nd\ne\nf\ng\nh".toList) (some 9) 84 false
      = "...\nf\ng\nh".toList := by decide

example :
    extractStrict "Go to https://example.com.".toList
      = some ("Go to ".toList, "https://example.com".toList, ".".toList) := by decide

example :
    extractStrict ("https://example.com".toList ++ [Char.ofNat 27, '[', '3', '1', 'm'])
      = some ([], "https://example.com".toList, [Char.ofNat 27, '[', '3', '1', 'm']) := by
  decide

example :
    splitUrl "x https://a.com y".toList
      = ["x ".toList, "https://a.com".toList, " y".toList] := by decide

example : (splitUrl "x https://a.com y https://b.com z".toList).flatten
    = "x https://a.com y https://b.com z".toList := by decide

/- ### Lemmas about the anchored matchers -/

theorem takeWhile_append_not_empty {p : Char → Bool} {l : List Char} (ys : List Char)
    (h : (l.takeWhile p).isEmpty = false) :
    ((l ++ ys).takeWhile p).isEmpty = false := by
  cases l with
  | nil => simp [List.takeWhile] at h
  | cons c cs =>
    by_cases hp : p c
    · simp [List.takeWhile_cons, hp]
    · simp [List.takeWhile_cons, hp] at h

theorem matchUrlAt_sound : MatcherSound matchUrlAt := by
  intro s m r h
  unfold matchUrlAt at h
  split at h
  · split at h
    · exact absurd h (by simp)
    · rename_i r' _
      obtain ⟨hm, hr⟩ := Prod.mk.injEq .. ▸ Option.some.injEq .. ▸ h
      subst hm; subst hr
      constructor
      · simp [List.takeWhile_append_dropWhile]
      · simp
  · split at h
    · exact absurd h (by simp)
    · rename_i r' _
      obtain ⟨hm, hr⟩ := Prod.mk.injEq .. ▸ Option.some.injEq .. ▸ h
      subst hm; subst hr
      constructor
      · simp [List.takeWhile_append_dropWhile]
      · simp
  · exact absurd h (by simp)

theorem strictSchemeLen_pos {s : List Char} {n : Nat}
    (h : strictSchemeLen s = some n) : s ≠ [] ∧ 0 < n := by
  constructor
  · intro hs
    subst hs
    simp [strictSchemeLen, stripCI] at h
  · unfold strictSchemeLen at h
    split at h
    · injection h with h
      omega
    · split at h
      · injection h with h
        omega
      · exact absurd h (by simp)

theorem matchStrictAt_sound : MatcherSound matchStrictAt := by
  intro s m r h
  unfold matchStrictAt at h
  split at h
  · exact absurd h (by simp)
  · rename_i n hn
    split at h
    · rename_i hkeep
      obtain ⟨hm, hr⟩ := Prod.mk.injEq .. ▸ Option.some.injEq .. ▸ h
      subst hm; subst hr
      refine ⟨(List.take_append_drop _ _).symm, ?_⟩
      obtain ⟨hs, hnpos⟩ := strictSchemeLen_pos hn
      intro hnil
      rw [List.take_eq_nil_iff] at hnil
      rcases hnil with h0 | h0
      · omega
      · exact hs h0
    · exact absurd h (by simp)


example :
    linkifySegments "x https://a.com y".toList 0
      = [("x ".toList, false), ("https://a.com".toList, true), (" y".toList, false)] := by
  decide

example : dispatch .emptyObj (some 20) 80 false true = .ansiRenderInvalid := by decide

example : lastLines [[], [], []] (some 2) = [[], []] := by decide

/- ### Lemmas about leftmost search and the splitter -/

theorem findFirstMatchWith_sound {matchAt : List Char → Option (List Char × List Char)}
    (hS : MatcherSound matchAt) :
    ∀ s pre m rest, findFirstMatchWith matchAt s = some (pre, m, rest) →
      s = pre ++ m ++ rest ∧ m ≠ [] ∧ matchAt (m ++ rest) = some (m, rest) := by
  intro s
  induction s with
  | nil => intro pre m rest h; exact absurd h (by simp [findFirstMatchWith])
  | cons c cs ih =>
    intro pre m rest h
    unfold findFirstMatchWith at h
    split at h
    · rename_i m' rest' hm
      cases h
      obtain ⟨hd, hne⟩ := hS _ _ _ hm
      exact ⟨by simpa using hd, hne, hd ▸ hm⟩
    · split at h
      · rename_i pre' m' rest' hrec
        cases h
        obtain ⟨hd, hne, hat⟩ := ih _ _ _ hrec
        exact ⟨by simp [hd], hne, hat⟩
      · exact absurd h (by simp)

theorem findFirstMatchWith_rest_lt {matchAt : List Char → Option (List Char × List Char)}
    (hS : MatcherSound matchAt) {s pre m rest : List Char}
    (h : findFirstMatchWith matchAt s = some (pre, m, rest)) :
    rest.length < s.length := by
  obtain ⟨hd, hne, _⟩ := findFirstMatchWith_sound hS s pre m rest h
  have : 0 < m.length := List.length_pos.mpr hne
  rw [hd]
  simp only [List.length_append]
  omega

theorem splitWithFuel_congr {matchAt : List Char → Option (List Char × List Char)}
    (hS : MatcherSound matchAt) :
    ∀ fuel₁ fuel₂ s, s.length ≤ fuel₁ → s.length ≤ fuel₂ →
      splitWithFuel matchAt fuel₁ s = splitWithFuel matchAt fuel₂ s := by
  intro fuel₁
  induction fuel₁ with
  | zero =>
    intro fuel₂ s h1 h2
    have hs : s = [] := List.length_eq_zero.mp (Nat.le_zero.mp h1)
    subst hs
    cases fuel₂ with
    | zero => rfl
    | succ f => simp [splitWithFuel, findFirstMatchWith]
  | succ f₁ ih =>
    intro fuel₂ s h1 h2
    cases fuel₂ with
    | zero =>
      have hs : s = [] := List.length_eq_zero.mp (Nat.le_zero.mp h2)
      subst hs
      simp [splitWithFuel, findFirstMatchWith]
    | succ f₂ =>
      show (match findFirstMatchWith matchAt s with
            | none => [s]
            | some (pre, m, rest) => pre :: m :: splitWithFuel matchAt f₁ rest) =
           (match findFirstMatchWith matchAt s with
            | none => [s]
            | some (pre, m, rest) => pre :: m :: splitWithFuel matchAt f₂ rest)
      cases h : findFirstMatchWith matchAt s with
      | none => rfl
      | some v =>
        obtain ⟨pre, m, rest⟩ := v
        have hlt := findFirstMatchWith_rest_lt hS h
        simp only []
        rw [ih f₂ rest (by omega) (by omega)]

theorem splitWith_eq {matchAt : List Char → Option (List Char × List Char)}
    (hS : MatcherSound matchAt) (s : List Char) :
    splitWith matchAt s =
      match findFirstMatchWith matchAt s with
      | none => [s]
      | some (pre, m, rest) => pre :: m :: splitWith matchAt rest := by
  cases h : findFirstMatchWith matchAt s with
  | none =>
    cases s with
    | nil => rfl
    | cons c cs =>
      show splitWithFuel matchAt (cs.length + 1) (c :: cs) = _
      simp [splitWithFuel, h]
  | some v =>
    obtain ⟨pre, m, rest⟩ := v
    have hlt := findFirstMatchWith_rest_lt hS h
    cases hs : s with
    | nil => subst hs; exact absurd h (by simp [findFirstMatchWith])
    | cons c cs =>
      subst hs
      show splitWithFuel matchAt (cs.length + 1) (c :: cs) = _
      simp only [splitWithFuel, h]
      rw [splitWithFuel_congr hS cs.length rest.length rest (by simpa using Nat.lt_succ_iff.mp hlt) le_rfl]
      rfl

theorem splitWith_flatten {matchAt : List Char → Option (List Char × List Char)}
    (hS : MatcherSound matchAt) : ∀ s, (splitWith matchAt s).flatten = s := by
  have key : ∀ n s, s.length ≤ n → ((splitWith matchAt s).flatten : List Char) = s := by
    intro n
    induction n with
    | zero =>
      intro s h1
      have hs : s = [] := List.length_eq_zero.mp (Nat.le_zero.mp h1)
      subst hs
      rfl
    | succ n ih =>
      intro s h1
      rw [splitWith_eq hS]
      cases h : findFirstMatchWith matchAt s with
      | none => simp
      | some v =>
        obtain ⟨pre, m, rest⟩ := v
        have hlt := findFirstMatchWith_rest_lt hS h
        obtain ⟨hd, _, _⟩ := findFirstMatchWith_sound hS s pre m rest h
        simp only [List.flatten_cons]
        rw [ih rest (by omega)]
        simp [hd]
  intro s
  exact key s.length s le_rfl

/- ### The separator pieces contain no match -/

theorem matchUrlAt_extend (xs ys : List Char) (h : (matchUrlAt xs).isSome) :
    (matchUrlAt (xs ++ ys)).isSome := by
  unfold matchUrlAt at h
  split at h
  · rename_i r
    split at h
    · simp at h
    · rename_i hne
      have hne2 : ((r ++ ys).takeWhile isUrlBodyChar).isEmpty = false :=
        takeWhile_append_not_empty ys (by simpa using hne)
      simp only [List.cons_append, matchUrlAt, hne2]
      simp
  · rename_i r
    split at h
    · simp at h
    · rename_i hne
      have hne2 : ((r ++ ys).takeWhile isUrlBodyChar).isEmpty = false :=
        takeWhile_append_not_empty ys (by simpa using hne)
      simp only [List.cons_append, matchUrlAt, hne2]
      simp
  · simp at h

theorem findFirstMatchWith_none_inv {matchAt : List Char → Option (List Char × List Char)}
    {c : Char} {cs : List Char} (h : findFirstMatchWith matchAt (c :: cs) = none) :
    matchAt (c :: cs) = none ∧ findFirstMatchWith matchAt cs = none := by
  unfold findFirstMatchWith at h
  split at h
  · exact absurd h (by simp)
  · split at h
    · exact absurd h (by simp)
    · rename_i hm _ hrec
      exact ⟨hm, hrec⟩

theorem findFirstMatchWith_none_drop {matchAt : List Char → Option (List Char × List Char)} :
    ∀ s, findFirstMatchWith matchAt s = none →
      ∀ i, findFirstMatchWith matchAt (s.drop i) = none := by
  intro s
  induction s with
  | nil => intro _ i; simp [findFirstMatchWith]
  | cons c cs ih =>
    intro h i
    obtain ⟨_, hrec⟩ := findFirstMatchWith_none_inv h
    cases i with
    | zero => exact h
    | succ i => exact ih hrec i

theorem findFirstMatchWith_cons (matchAt : List Char → Option (List Char × List Char))
    (c : Char) (cs : List Char) :
    findFirstMatchWith matchAt (c :: cs) =
      match matchAt (c :: cs) with
      | some (m, rest) => some ([], m, rest)
      | none =>
        match findFirstMatchWith matchAt cs with
        | some (pre, m, rest) => some (c :: pre, m, rest)
        | none => none := rfl

theorem findFirstMatchWith_pre_none
    {matchAt : List Char → Option (List Char × List Char)}
    (hS : MatcherSound matchAt)
    (hE : ∀ xs ys, (matchAt xs).isSome → (matchAt (xs ++ ys)).isSome) :
    ∀ s pre m rest, findFirstMatchWith matchAt s = some (pre, m, rest) →
      findFirstMatchWith matchAt pre = none := by
  intro s
  induction s with
  | nil => intro pre m rest h; exact absurd h (by simp [findFirstMatchWith])
  | cons c cs ih =>
    intro pre m rest h
    rw [findFirstMatchWith_cons] at h
    cases hm : matchAt (c :: cs) with
    | some v =>
      obtain ⟨m0, rest0⟩ := v
      rw [hm] at h
      cases h
      rfl
    | none =>
      rw [hm] at h
      cases hr : findFirstMatchWith matchAt cs with
      | none => rw [hr] at h; exact absurd h (by simp)
      | some w =>
        obtain ⟨pre0, m0, rest0⟩ := w
        rw [hr] at h
        cases h
        have hpre0 := ih _ _ _ hr
        have hdecomp := (findFirstMatchWith_sound hS cs pre0 m rest hr).1
        rw [findFirstMatchWith_cons]
        have hmc : matchAt (c :: pre0) = none := by
          cases hcp : matchAt (c :: pre0) with
          | none => rfl
          | some v =>
            have hsome : (matchAt ((c :: pre0) ++ (m ++ rest))).isSome :=
              hE _ _ (by simp [hcp])
            rw [List.cons_append, ← List.append_assoc, ← hdecomp, hm] at hsome
            exact absurd hsome (by simp)
        rw [hmc, hpre0]

theorem matchUrlAt_self {s m r : List Char} (h : matchUrlAt s = some (m, r)) :
    matchUrlAt m = some (m, []) := by
  unfold matchUrlAt at h
  split at h
  · split at h
    · exact absurd h (by simp)
    · rename_i r' hne
      cases h
      have hall : ∀ c ∈ r'.takeWhile isUrlBodyChar, isUrlBodyChar c :=
        fun c hc => List.mem_takeWhile_imp hc
      have htw : (r'.takeWhile isUrlBodyChar).takeWhile isUrlBodyChar
          = r'.takeWhile isUrlBodyChar := List.takeWhile_eq_self_iff.mpr hall
      have hdw : (r'.takeWhile isUrlBodyChar).dropWhile isUrlBodyChar = [] :=
        List.dropWhile_eq_nil_iff.mpr hall
      have hne2 : (r'.takeWhile isUrlBodyChar).isEmpty = false := by
        simpa using hne
      simp only [List.cons_append, List.nil_append, matchUrlAt, htw, hdw, hne2]
      simp
  · split at h
    · exact absurd h (by simp)
    · rename_i r' hne
      cases h
      have hall : ∀ c ∈ r'.takeWhile isUrlBodyChar, isUrlBodyChar c :=
        fun c hc => List.mem_takeWhile_imp hc
      have htw : (r'.takeWhile isUrlBodyChar).takeWhile isUrlBodyChar
          = r'.takeWhile isUrlBodyChar := List.takeWhile_eq_self_iff.mpr hall
      have hdw : (r'.takeWhile isUrlBodyChar).dropWhile isUrlBodyChar = [] :=
        List.dropWhile_eq_nil_iff.mpr hall
      have hne2 : (r'.takeWhile isUrlBodyChar).isEmpty = false := by
        simpa using hne
      simp only [List.cons_append, List.nil_append, matchUrlAt, htw, hdw, hne2]
      simp
  · exact absurd h (by simp)

/- ### The stateful classification computes the stateless segmentation -/

theorem testG_of_no_match {p : List Char} (hp : findFirstUrl p = none) (L : Nat) :
    testG L p = (false, 0) := by
  unfold testG
  rw [show findFirstUrl (List.drop L p) = none from findFirstMatchWith_none_drop p hp L]

theorem testG_of_self_match {m : List Char} (hmne : m ≠ [])
    (hmm : matchUrlAt m = some (m, [])) : testG 0 m = (true, m.length) := by
  have hffm : findFirstUrl m = some ([], m, []) := by
    cases m with
    | nil => exact absurd rfl hmne
    | cons c cs =>
      show findFirstMatchWith matchUrlAt (c :: cs) = _
      rw [findFirstMatchWith_cons, hmm]
  unfold testG
  rw [List.drop_zero, hffm]
  simp

theorem classifyParts_state_free :
    ∀ s L, classifyParts L (splitUrl s) = segmentPure s := by
  have key : ∀ n s, s.length ≤ n → ∀ L, classifyParts L (splitUrl s) = segmentPure s := by
    intro n
    induction n with
    | zero =>
      intro s hs L
      have h0 : s = [] := List.length_eq_zero.mp (Nat.le_zero.mp hs)
      subst h0
      have hnone : findFirstUrl [] = none := rfl
      have hsplit : splitUrl [] = [[]] := rfl
      rw [hsplit]
      unfold segmentPure
      rw [hsplit]
      unfold classifyParts
      rw [testG_of_no_match hnone L]
      simp [classifyParts, hnone]
    | succ n ih =>
      intro s hs L
      have heq := splitWith_eq matchUrlAt_sound s
      cases h : findFirstUrl s with
      | none =>
        have hsplit : splitUrl s = [s] := by
          show splitWith matchUrlAt s = [s]
          rw [heq]
          rw [show findFirstMatchWith matchUrlAt s = none from h]
        rw [hsplit]
        unfold segmentPure
        rw [hsplit]
        unfold classifyParts
        rw [testG_of_no_match h L]
        simp [classifyParts, h]
      | some v =>
        obtain ⟨pre, m, rest⟩ := v
        have hsplit : splitUrl s = pre :: m :: splitUrl rest := by
          show splitWith matchUrlAt s = _
          rw [heq]
          rw [show findFirstMatchWith matchUrlAt s = some (pre, m, rest) from h]
        obtain ⟨hdec, hmne, hmat⟩ := findFirstMatchWith_sound matchUrlAt_sound s pre m rest h
        have hmm : matchUrlAt m = some (m, []) := matchUrlAt_self hmat
        have hpre : findFirstUrl pre = none :=
          findFirstMatchWith_pre_none matchUrlAt_sound matchUrlAt_extend s pre m rest h
        have hffm : findFirstUrl m = some ([], m, []) := by
          cases m with
          | nil => exact absurd rfl hmne
          | cons c cs =>
            show findFirstMatchWith matchUrlAt (c :: cs) = _
            rw [findFirstMatchWith_cons, hmm]
        have hlt : rest.length < s.length := findFirstMatchWith_rest_lt matchUrlAt_sound h
        rw [hsplit]
        unfold segmentPure
        rw [hsplit]
        unfold classifyParts
        rw [testG_of_no_match hpre L]
        show (pre, false) :: classifyParts 0 (m :: splitUrl rest) = _
        unfold classifyParts
        rw [testG_of_self_match hmne hmm]
        show (pre, false) :: (m, true) :: classifyParts m.length (splitUrl rest) = _
        rw [ih rest (by omega) m.length]
        unfold segmentPure
        simp [hpre, hffm]
  intro s L
  exact key s.length s le_rfl L

/- ### Lemmas about line splitting and joining -/

theorem splitLines_ne_nil : ∀ t : List Char, splitLines t ≠ [] := by
  intro t
  cases t with
  | nil => simp [splitLines]
  | cons c cs =>
    unfold splitLines
    cases h : splitLines cs with
    | nil => simp
    | cons l ls =>
      by_cases hc : c = '\n' <;> simp [hc]

theorem splitLines_no_newline : ∀ (t : List Char), ∀ l ∈ splitLines t, '\n' ∉ l := by
  intro t
  induction t with
  | nil =>
    intro l hl
    simp [splitLines] at hl
    simp [hl]
  | cons c cs ih =>
    intro l hl
    unfold splitLines at hl
    cases h : splitLines cs with
    | nil => exact absurd h (splitLines_ne_nil cs)
    | cons l0 ls0 =>
      rw [h] at hl
      dsimp only at hl
      by_cases hc : c = '\n'
      · rw [if_pos hc] at hl
        rcases List.mem_cons.mp hl with hl1 | hl1
        · subst hl1
          simp
        · exact ih l (by rw [h]; exact hl1)
      · rw [if_neg hc] at hl
        rcases List.mem_cons.mp hl with hl1 | hl1
        · subst hl1
          intro hmem
          rcases List.mem_cons.mp hmem with h1 | h1
          · exact hc h1.symm
          · exact ih l0 (by rw [h]; exact List.mem_cons_self l0 ls0) h1
        · exact ih l (by rw [h]; exact List.mem_cons_of_mem l0 hl1)

theorem splitLines_newline_cons (X : List Char) :
    splitLines ('\n' :: X) = [] :: splitLines X := by
  cases hX : splitLines X with
  | nil => exact absurd hX (splitLines_ne_nil X)
  | cons l ls => simp [splitLines, hX]

theorem splitLines_other_cons {c : Char} (hc : c ≠ '\n') (X : List Char) :
    ∀ l ls, splitLines X = l :: ls → splitLines (c :: X) = (c :: l) :: ls := by
  intro l ls hX
  simp [splitLines, hX, hc]

theorem splitLines_of_no_newline : ∀ (l : List Char), '\n' ∉ l → splitLines l = [l] := by
  intro l
  induction l with
  | nil => intro _; rfl
  | cons c cs ih =>
    intro h
    have hc : c ≠ '\n' := fun he => h (he ▸ List.mem_cons_self c cs)
    have hcs : splitLines cs = [cs] := ih (fun hm => h (List.mem_cons_of_mem c hm))
    exact splitLines_other_cons hc cs cs [] hcs

theorem splitLines_append_line : ∀ (l X : List Char), '\n' ∉ l →
    splitLines (l ++ '\n' :: X) = l :: splitLines X := by
  intro l
  induction l with
  | nil => intro X _; exact splitLines_newline_cons X
  | cons c cs ih =>
    intro X h
    have hc : c ≠ '\n' := fun he => h (he ▸ List.mem_cons_self c cs)
    have hcs := ih X (fun hm => h (List.mem_cons_of_mem c hm))
    rw [List.cons_append]
    exact splitLines_other_cons hc (cs ++ '\n' :: X) cs (splitLines X) hcs

theorem splitLines_joinLines : ∀ (ls : List (List Char)), ls ≠ [] →
    (∀ l ∈ ls, '\n' ∉ l) → splitLines (joinLines ls) = ls := by
  intro ls
  induction ls with
  | nil => intro h _; exact absurd rfl h
  | cons l ls ih =>
    intro _ hnl
    cases ls with
    | nil =>
      show splitLines (joinLines [l]) = [l]
      have : joinLines [l] = l := rfl
      rw [this]
      exact splitLines_of_no_newline l (hnl l (List.mem_cons_self l []))
    | cons l2 ls2 =>
      have hjoin : joinLines (l :: l2 :: ls2) = l ++ '\n' :: joinLines (l2 :: ls2) := rfl
      rw [hjoin]
      rw [splitLines_append_line l (joinLines (l2 :: ls2)) (hnl l (List.mem_cons_self l _))]
      rw [ih (by simp) (fun x hx => hnl x (List.mem_cons_of_mem l hx))]

theorem splitLines_elision_line (X : List Char) :
    splitLines (['.', '.', '.', '\n'] ++ X) = ['.', '.', '.'] :: splitLines X := by
  have h : (['.', '.', '.', '\n'] ++ X) = ['.', '.', '.'] ++ '\n' :: X := by simp
  rw [h]
  exact splitLines_append_line ['.', '.', '.'] X (by decide)

/- ### The greedy fit of the backwards loop -/

theorem visualRows_cons (w : Nat) (l : List Char) (ls : List (List Char)) :
    visualRows w (l :: ls) = lineVisualHeight l.length w + visualRows w ls := by
  simp [visualRows]

theorem visualRows_reverse (w : Nat) (ls : List (List Char)) :
    visualRows w ls.reverse = visualRows w ls := by
  unfold visualRows
  rw [List.map_reverse, List.sum_reverse]

theorem takeRows_greedy (w b : Nat) :
    ∀ (ls : List (List Char)) (cur : Nat), cur ≤ b →
      takeRows w b cur ls ≤ ls.length ∧
      cur + visualRows w (ls.take (takeRows w b cur ls)) ≤ b ∧
      (takeRows w b cur ls < ls.length →
        b < cur + visualRows w (ls.take (takeRows w b cur ls + 1))) := by
  intro ls
  induction ls with
  | nil =>
    intro cur hcur
    refine ⟨Nat.le_refl _, ?_, ?_⟩
    · simpa [takeRows, visualRows] using hcur
    · intro h
      simp [takeRows] at h
  | cons l ls ih =>
    intro cur hcur
    by_cases hfit : b < cur + lineVisualHeight l.length w
    · have htr : takeRows w b cur (l :: ls) = 0 := by
        simp [takeRows, hfit]
      refine ⟨by simp [htr], ?_, ?_⟩
      · simpa [htr, visualRows] using hcur
      · intro _
        rw [htr]
        simpa [visualRows_cons] using hfit
    · have hle : cur + lineVisualHeight l.length w ≤ b := Nat.not_lt.mp hfit
      obtain ⟨ih1, ih2, ih3⟩ := ih (cur + lineVisualHeight l.length w) hle
      have htr : takeRows w b cur (l :: ls)
          = 1 + takeRows w b (cur + lineVisualHeight l.length w) ls := by
        simp [takeRows, hfit]
      refine ⟨?_, ?_, ?_⟩
      · rw [htr]
        simpa [Nat.add_comm] using ih1
      · rw [htr]
        have : (l :: ls).take (1 + takeRows w b (cur + lineVisualHeight l.length w) ls)
            = l :: ls.take (takeRows w b (cur + lineVisualHeight l.length w) ls) := by
          rw [Nat.add_comm]
          rfl
        rw [this, visualRows_cons]
        omega
      · intro hlt
        rw [htr] at hlt ⊢
        have hlt' : takeRows w b (cur + lineVisualHeight l.length w) ls < ls.length := by
          simpa [Nat.add_comm] using hlt
        have := ih3 hlt'
        have hsucc : (l :: ls).take (1 + takeRows w b (cur + lineVisualHeight l.length w) ls + 1)
            = l :: ls.take (takeRows w b (cur + lineVisualHeight l.length w) ls + 1) := by
          rw [Nat.add_comm 1 _, Nat.add_assoc]
          rfl
        rw [hsucc, visualRows_cons]
        omega

/- ### Structure of the line-aware truncation result -/

theorem lineTruncate_cases (w b : Nat) (t : List Char) :
    lineTruncate w b t =
      (if takeRows w b 0 (splitLines t).reverse < (splitLines t).length
       then ['.', '.', '.', '\n'] ++
         joinLines ((splitLines t).drop
           ((splitLines t).length - takeRows w b 0 (splitLines t).reverse))
       else t) := rfl

theorem heightSumLastK_drop (w k : Nat) (lines : List (List Char)) :
    heightSumLastK w lines k = visualRows w (lines.drop (lines.length - k)) := by
  unfold heightSumLastK
  rw [List.take_reverse, visualRows_reverse]

theorem lineVisualHeight_empty_le_one (w : Nat) : lineVisualHeight 0 w ≤ 1 := by
  cases w with
  | zero => decide
  | succ w' =>
    unfold lineVisualHeight
    simp [Nat.div_self]

theorem derivedAvailableHeight_ge {ath : Option Nat} {b : Nat}
    (h : derivedAvailableHeight ath = some b) : 3 ≤ b := by
  unfold derivedAvailableHeight at h
  split at h
  · exact absurd h (by simp)
  · split at h
    · exact absurd h (by simp)
    · injection h with h
      subst h
      exact le_max_of_le_right (by decide)

theorem lineTruncate_rows_le (w b : Nat) (hb : 1 ≤ b) (t : List Char) :
    visualRows w (splitLines (lineTruncate w b t)) ≤ b + lineVisualHeight 3 w := by
  obtain ⟨hk1, hk2, hk3⟩ :=
    takeRows_greedy w b (splitLines t).reverse 0 (Nat.zero_le b)
  rw [lineTruncate_cases]
  by_cases hlt : takeRows w b 0 (splitLines t).reverse < (splitLines t).length
  · rw [if_pos hlt]
    have hkept : visualRows w ((splitLines t).drop
        ((splitLines t).length - takeRows w b 0 (splitLines t).reverse)) ≤ b := by
      rw [← heightSumLastK_drop]
      unfold heightSumLastK
      simpa using hk2
    have hnonl : ∀ l ∈ (splitLines t).drop
        ((splitLines t).length - takeRows w b 0 (splitLines t).reverse), '\n' ∉ l := by
      intro l hl
      exact splitLines_no_newline t l (List.drop_subset _ _ hl)
    cases hk0 : ((splitLines t).drop
        ((splitLines t).length - takeRows w b 0 (splitLines t).reverse)) with
    | nil =>
      have hjn : joinLines [] = ([] : List Char) := rfl
      rw [hjn, List.append_nil]
      have hsp : splitLines (['.', '.', '.', '\n'] : List Char)
          = [['.', '.', '.'], []] := by decide
      rw [hsp, visualRows_cons, visualRows_cons]
      have h0 : visualRows w ([] : List (List Char)) = 0 := rfl
      rw [h0]
      have := lineVisualHeight_empty_le_one w
      norm_num
      omega
    | cons kl kls =>
      rw [hk0] at hkept hnonl
      rw [splitLines_elision_line, splitLines_joinLines (kl :: kls) (by simp) hnonl,
        visualRows_cons]
      norm_num
      omega
  · rw [if_neg hlt]
    have hkn : takeRows w b 0 (splitLines t).reverse = (splitLines t).length := by
      have := hk1
      simp only [List.length_reverse] at this
      omega
    have : visualRows w (splitLines t) ≤ b := by
      have htake : (splitLines t).reverse.take (takeRows w b 0 (splitLines t).reverse)
          = (splitLines t).reverse := by
        rw [hkn]
        exact List.take_of_length_le (by simp)
      rw [htake] at hk2
      rw [visualRows_reverse] at hk2
      simpa using hk2
    omega

/- ### Helpers about the full pipeline -/

theorem truncatedResultDisplayStr_applied {ath : Option Nat} {b : Nat}
    (hb : derivedAvailableHeight ath = some b) (t : List Char) (tw : Nat) :
    truncatedResultDisplayStr t ath tw false
      = lineTruncate (tw - combinedPaddingAndBorderWidth) b (charCap t) := by
  unfold truncatedResultDisplayStr
  rw [hb]

theorem truncatedResultDisplayStr_bypass (t : List Char) (ath : Option Nat) (tw : Nat)
    (alt : Bool) (h : derivedAvailableHeight ath = none ∨ alt = true) :
    truncatedResultDisplayStr t ath tw alt = charCap t := by
  unfold truncatedResultDisplayStr
  rcases h with h | h
  · rw [h]
  · subst h
    cases hd : derivedAvailableHeight ath <;> rfl

theorem lineTruncate_nil (w b : Nat) (hb : 1 ≤ b) : lineTruncate w b [] = [] := by
  rw [lineTruncate_cases]
  have hsp : splitLines ([] : List Char) = [[]] := rfl
  have htk : takeRows w b 0 (splitLines ([] : List Char)).reverse = 1 := by
    rw [hsp]
    show takeRows w b 0 [[]] = 1
    unfold takeRows
    rw [if_neg]
    · simp [takeRows]
    · have h1 := lineVisualHeight_empty_le_one w
      simp only [List.length_nil]
      omega
  rw [htk, hsp]
  simp

theorem truncatedResultDisplayStr_nil (ath : Option Nat) (tw : Nat) (alt : Bool) :
    truncatedResultDisplayStr [] ath tw alt = [] := by
  unfold truncatedResultDisplayStr
  cases hd : derivedAvailableHeight ath with
  | none => cases alt <;> rfl
  | some b =>
    cases alt with
    | false =>
      show lineTruncate (tw - combinedPaddingAndBorderWidth) b (charCap []) = []
      have hc : charCap [] = [] := rfl
      rw [hc]
      exact lineTruncate_nil _ b (by have := derivedAvailableHeight_ge hd; omega)
    | true => rfl

/- ### Claim theorems -/

/-- C2: for every string longer than 20000 characters, the character-cap
step returns a string of length exactly 20003 consisting of the
three-character elision marker `"..."` followed by the last 20000
characters of the input; strings of length at most 20000 pass through
unchanged. -/
theorem c2_character_cap (t : List Char) :
    (20000 < t.length →
      (charCap t).length = 20003 ∧
      (charCap t).take 3 = elisionChars ∧
      (charCap t).drop 3 = t.drop (t.length - 20000)) ∧
    (t.length ≤ 20000 → charCap t = t) := by
  constructor
  · intro h
    have hcap : charCap t = elisionChars ++ t.drop (t.length - 20000) := by
      unfold charCap
      rw [if_pos (by simpa [MAXIMUM_RESULT_DISPLAY_CHARACTERS] using h)]
      rfl
    rw [hcap]
    refine ⟨?_, ?_, ?_⟩
    · rw [List.length_append, List.length_drop]
      have : elisionChars.length = 3 := rfl
      omega
    · rw [show (3 : Nat) = elisionChars.length from rfl, List.take_left]
    · rw [show (3 : Nat) = elisionChars.length from rfl, List.drop_left]
  · intro h
    unfold charCap
    rw [if_neg (by simp only [MAXIMUM_RESULT_DISPLAY_CHARACTERS]; omega)]

/-- Witness for C2: both branches at concrete inputs — a 20001-character
string is capped to length 20003, and a short string passes through. -/
theorem c2_character_cap_witness :
    (20000 < (List.replicate 20001 'a').length ∧
      (charCap (List.replicate 20001 'a')).length = 20003) ∧
    ((List.replicate 3 'b').length ≤ 20000 ∧
      charCap (List.replicate 3 'b') = List.replicate 3 'b') :=
  ⟨⟨by rw [List.length_replicate]; omega,
    ((c2_character_cap (List.replicate 20001 'a')).1
      (by rw [List.length_replicate]; omega)).1⟩,
   ⟨by rw [List.length_replicate]; omega,
    (c2_character_cap (List.replicate 3 'b')).2
      (by rw [List.length_replicate]; omega)⟩⟩

/-- C4: for `0 < W` the estimator returns exactly `ceil (max 1 L / W)` —
characterized as the least `h` with `max 1 L ≤ W * h`; an empty line
occupies exactly one row; the spec's wrap-accounting example
(`lengths 5, 20, 3` at width `6` give `1, 4, 1`, and with budget `5` only
the last two lines survive, the first being dropped behind an elision
line). -/
theorem c4_visual_height_estimator :
    (∀ L W : Nat, 0 < W →
      max 1 L ≤ W * lineVisualHeight L W ∧
      (∀ h : Nat, max 1 L ≤ W * h → lineVisualHeight L W ≤ h)) ∧
    (∀ W : Nat, 0 < W → lineVisualHeight 0 W = 1) ∧
    lineVisualHeight 5 6 = 1 ∧ lineVisualHeight 20 6 = 4 ∧ lineVisualHeight 3 6 = 1 ∧
    lineTruncate 6 5 exampleWrapText
      = ['.', '.', '.', '\n'] ++ joinLines ["12345678901234567890".toList, "End".toList] := by
  refine ⟨?_, ?_, by decide, by decide, by decide, by decide⟩
  · intro L W hW
    have ha : 1 ≤ max 1 L := le_max_left 1 L
    constructor
    · have hmod : (max 1 L + W - 1) % W < W := Nat.mod_lt _ hW
      have hdm := Nat.div_add_mod (max 1 L + W - 1) W
      unfold lineVisualHeight
      omega
    · intro h hh
      unfold lineVisualHeight
      rw [Nat.div_le_iff_le_mul_add_pred hW]
      omega
  · intro W hW
    unfold lineVisualHeight
    have h1 : max 1 0 + W - 1 = W := by omega
    rw [h1]
    exact Nat.div_self hW

/-- Witness for C4: the least-`h` characterization applied at
`L = 20, W = 6` and the empty-line case at `W = 6`. -/
theorem c4_visual_height_estimator_witness :
    (0 < 6 ∧ max 1 20 ≤ 6 * lineVisualHeight 20 6) ∧ lineVisualHeight 0 6 = 1 :=
  ⟨⟨by decide, (c4_visual_height_estimator.1 20 6 (by decide)).1⟩,
   c4_visual_height_estimator.2.1 6 (by decide)⟩

/-- C1 (amended): when line-aware truncation is applied (derived height
budget present, not in the alternate buffer), the returned text's
estimated visual row count is at most `availableHeight` plus the one
extra contribution of the prepended elision line
(`lineVisualHeight 3 childWidth`); when it is not applied, the
character-capped text is returned verbatim. -/
theorem c1_height_bound_with_elision (t : List Char) (ath : Option Nat)
    (tw : Nat) (alt : Bool) :
    (∀ b : Nat, derivedAvailableHeight ath = some b → alt = false →
      visualRows (tw - combinedPaddingAndBorderWidth)
          (splitLines (truncatedResultDisplayStr t ath tw alt))
        ≤ b + lineVisualHeight 3 (tw - combinedPaddingAndBorderWidth)) ∧
    (derivedAvailableHeight ath = none ∨ alt = true →
      truncatedResultDisplayStr t ath tw alt = charCap t) := by
  constructor
  · intro b hb halt
    subst halt
    rw [truncatedResultDisplayStr_applied hb]
    exact lineTruncate_rows_le _ b
      (by have := derivedAvailableHeight_ge hb; omega) (charCap t)
  · exact truncatedResultDisplayStr_bypass t ath tw alt

/-- Witness for C1 (amended): the height bound applied at a concrete
eight-line input with derived budget 3, and the alternate-buffer bypass at
a concrete input. -/
theorem c1_height_bound_with_elision_witness :
    (derivedAvailableHeight (some 9) = some 3 ∧
      visualRows (84 - combinedPaddingAndBorderWidth)
          (splitLines (truncatedResultDisplayStr
            ("a\nb\nc\nd\ne\nf\ng\nh".toList) (some 9) 84 false))
        ≤ 3 + lineVisualHeight 3 (84 - combinedPaddingAndBorderWidth)) ∧
    truncatedResultDisplayStr "abc".toList (some 9) 84 true = charCap "abc".toList :=
  ⟨⟨by decide,
    (c1_height_bound_with_elision ("a\nb\nc\nd\ne\nf\ng\nh".toList) (some 9) 84 false).1
      3 (by decide) rfl⟩,
   (c1_height_bound_with_elision "abc".toList (some 9) 84 true).2 (Or.inr rfl)⟩

/-- Counterexample to C1 as stated: with `availableTerminalHeight = 9`
(derived budget 3), width 84 and eight one-character lines, line-aware
truncation applies, yet the returned text `"...\nf\ng\nh"` occupies 4
estimated rows — more than the budget of 3 — because the elision line is
prepended after the budget is filled. -/
theorem c1_height_bound_counterexample :
    derivedAvailableHeight (some 9) = some 3 ∧
    truncatedResultDisplayStr ("a\nb\nc\nd\ne\nf\ng\nh".toList) (some 9) 84 false
      = "...\nf\ng\nh".toList ∧
    ¬ (visualRows (84 - combinedPaddingAndBorderWidth)
        (splitLines (truncatedResultDisplayStr
          ("a\nb\nc\nd\ne\nf\ng\nh".toList) (some 9) 84 false)) ≤ 3) := by
  refine ⟨by decide, by decide, by decide⟩

/-- C3: the line-aware truncation walks lines from the last toward the
first — the number `k` of retained lines satisfies that the last `k`
lines' estimated rows fit `availableHeight` while including one more line
would exceed it — prepends the elision line `"...\n"` exactly when at
least one leading line is dropped, and returns the text unchanged
otherwise; for twenty single-word lines at `renderWidth = 80` and
`availableHeight = 4` the result is the elision line followed by exactly
the last four lines. -/
theorem c3_backwards_line_walk :
    (∀ (t : List Char) (w b : Nat),
      heightSumLastK w (splitLines t) (takeRows w b 0 (splitLines t).reverse) ≤ b ∧
      (takeRows w b 0 (splitLines t).reverse < (splitLines t).length →
        b < heightSumLastK w (splitLines t) (takeRows w b 0 (splitLines t).reverse + 1)) ∧
      lineTruncate w b t =
        (if takeRows w b 0 (splitLines t).reverse < (splitLines t).length
         then ['.', '.', '.', '\n'] ++ joinLines ((splitLines t).drop
            ((splitLines t).length - takeRows w b 0 (splitLines t).reverse))
         else t)) ∧
    lineTruncate 80 4 exampleText20
      = ['.', '.', '.', '\n'] ++
          joinLines ["line17".toList, "line18".toList, "line19".toList, "line20".toList] := by
  constructor
  · intro t w b
    obtain ⟨hk1, hk2, hk3⟩ := takeRows_greedy w b (splitLines t).reverse 0 (Nat.zero_le b)
    refine ⟨?_, ?_, lineTruncate_cases w b t⟩
    · unfold heightSumLastK
      simpa using hk2
    · intro hlt
      unfold heightSumLastK
      have := hk3 (by simpa using hlt)
      simpa using this
  · decide

/-- Witness for C3: the greedy stop condition instantiated at the
twenty-line example (`k = 4` retained lines at budget 4; a fifth would
overflow). -/
theorem c3_backwards_line_walk_witness :
    heightSumLastK 80 (splitLines exampleText20)
        (takeRows 80 4 0 (splitLines exampleText20).reverse) ≤ 4 ∧
    (4 < heightSumLastK 80 (splitLines exampleText20)
        (takeRows 80 4 0 (splitLines exampleText20).reverse + 1)) :=
  ⟨(c3_backwards_line_walk.1 exampleText20 80 4).1,
   (c3_backwards_line_walk.1 exampleText20 80 4).2.1 (by decide)⟩

/-- C10: when line-aware truncation applies and even the last line alone
exceeds the height budget, every line is dropped and the truncator
returns exactly the string `"...\n"`. -/
theorem c10_all_lines_dropped (t : List Char) (ath : Option Nat) (tw b : Nat)
    (hb : derivedAvailableHeight ath = some b)
    (hlast : b < lineVisualHeight
      ((splitLines (charCap t)).getLastD []).length
      (tw - combinedPaddingAndBorderWidth)) :
    truncatedResultDisplayStr t ath tw false = ['.', '.', '.', '\n'] := by
  rw [truncatedResultDisplayStr_applied hb]
  rw [lineTruncate_cases]
  have hne : splitLines (charCap t) ≠ [] := splitLines_ne_nil (charCap t)
  have hpos : 0 < (splitLines (charCap t)).length := List.length_pos.mpr hne
  cases hrev : (splitLines (charCap t)).reverse with
  | nil =>
    exact absurd (by simpa using congrArg List.reverse hrev) hne
  | cons x xs =>
    have hx : x = (splitLines (charCap t)).getLastD [] := by
      have h1 : (splitLines (charCap t)).reverse.head? = some x := by
        rw [hrev]; rfl
      rw [List.head?_reverse] at h1
      rw [List.getLastD_eq_getLast?, h1]
      rfl
    have htk : takeRows (tw - combinedPaddingAndBorderWidth) b 0 (x :: xs) = 0 := by
      unfold takeRows
      rw [if_pos]
      rw [hx]
      simpa using hlast
    rw [htk, if_pos hpos]
    have hdrop : (splitLines (charCap t)).drop ((splitLines (charCap t)).length - 0)
        = [] := by
      simp
    rw [hdrop]
    rfl

/-- Witness for C10: a single 30-character line at terminal width 10
(child width 6, so 5 estimated rows) against derived budget 3 collapses
to exactly `"...\n"`. -/
theorem c10_all_lines_dropped_witness :
    (derivedAvailableHeight (some 9) = some 3 ∧
      3 < lineVisualHeight
        ((splitLines (charCap (List.replicate 30 'a'))).getLastD []).length
        (10 - combinedPaddingAndBorderWidth)) ∧
    truncatedResultDisplayStr (List.replicate 30 'a') (some 9) 10 false
      = ['.', '.', '.', '\n'] :=
  ⟨⟨by decide, by decide⟩,
   c10_all_lines_dropped (List.replicate 30 'a') (some 9) 10 3 (by decide) (by decide)⟩

/-- C5: segmenting a string into URL and non-URL parts and concatenating
the segments' contents in order reproduces the string exactly — both for
the LinkifiedText / AnsiOutput splitter and for the strict-regex splitter
of the unnamed AnsiOutput revision. -/
theorem c5_segmentation_round_trip :
    (∀ s : List Char, ((segmentPure s).map Prod.fst).flatten = s) ∧
    (∀ s : List Char, (splitUrlStrict s).flatten = s) := by
  constructor
  · intro s
    have hmap : (segmentPure s).map Prod.fst = splitUrl s := by
      unfold segmentPure
      rw [List.map_map]
      have hid : (Prod.fst ∘ fun p : List Char => (p, (findFirstUrl p).isSome)) = id := rfl
      rw [hid, List.map_id]
    rw [hmap]
    exact splitWith_flatten matchUrlAt_sound s
  · intro s
    exact splitWith_flatten matchStrictAt_sound s

/-- C6: the strict URL regex ends a match only on a safe-terminator
character — the trailing sentence period, surrounding double quotes,
surrounding angle brackets, and a trailing ANSI escape sequence are all
excluded from the extracted span. -/
theorem c6_url_boundary_exclusion :
    extractStrict "Go to https://example.com.".toList
      = some ("Go to ".toList, "https://example.com".toList, ".".toList) ∧
    extractStrict "\"https://example.com\"".toList
      = some ("\"".toList, "https://example.com".toList, "\"".toList) ∧
    extractStrict "<https://example.com>".toList
      = some ("<".toList, "https://example.com".toList, ">".toList) ∧
    extractStrict ("https://example.com".toList ++ [Char.ofNat 27, '[', '3', '1', 'm'])
      = some ([], "https://example.com".toList, [Char.ofNat 27, '[', '3', '1', 'm']) := by
  refine ⟨by decide, by decide, by decide, by decide⟩

/-- C9: every operation of the embedding is a function of its declared
inputs; in particular the only stateful ingredient of the source — the
shared global regex whose `lastIndex` persists across `test` calls — does
not influence the URL/non-URL classification: classifying the split parts
from any inherited `lastIndex` state yields the stateless segmentation,
so identical inputs always produce identical segments regardless of
earlier invocations or classification order. -/
theorem c9_classification_deterministic (s : List Char) (L₁ L₂ : Nat) :
    linkifySegments s L₁ = segmentPure s ∧
    linkifySegments s L₁ = linkifySegments s L₂ := by
  constructor
  · exact classifyParts_state_free s L₁
  · rw [show linkifySegments s L₁ = classifyParts L₁ (splitUrl s) from rfl,
      show linkifySegments s L₂ = classifyParts L₂ (splitUrl s) from rfl,
      classifyParts_state_free s L₁, classifyParts_state_free s L₂]

/-- C7: the styled-line window returns exactly the last `min M K` lines of
an `M`-line document, unchanged and in order, where `K` is
`availableHeight` when that is present and positive and the fixed default
24 otherwise. -/
theorem c7_styled_line_window (data : List AnsiLine) (ath : Option Int) :
    ∃ dropped : List AnsiLine,
      data = dropped ++ lastLines data ath ∧
      (lastLines data ath).length =
        min data.length
          (match ath with
           | some h => if 0 < h then h.toNat else DEFAULT_HEIGHT
           | none => DEFAULT_HEIGHT) := by
  refine ⟨data.take (data.length -
    (match ath with
     | some h => if 0 < h then h.toNat else DEFAULT_HEIGHT
     | none => DEFAULT_HEIGHT)), ?_, ?_⟩
  · exact (List.take_append_drop _ data).symm
  · show (data.drop _).length = _
    rw [List.length_drop]
    omega

/-- C8 (amended): the dispatcher's first decision rule catches an absent
payload and an empty string payload — both render nothing, for every
height, width, buffer-mode and markdown input, and never crash — but an
empty object is *not* caught by it: being truthy in JS, it falls through
the shape checks to the styled-document branch (`AnsiOutputText`), which
receives a payload that is not a styled document. -/
theorem c8_empty_payload_dispatch (ath : Option Nat) (tw : Nat) (alt md : Bool) :
    dispatch .undef ath tw alt md = .nothing ∧
    dispatch (.str []) ath tw alt md = .nothing ∧
    dispatch .emptyObj ath tw alt md = .ansiRenderInvalid := by
  refine ⟨?_, ?_, ?_⟩
  · unfold dispatch
    simp [jsFalsyPayload]
  · unfold dispatch
    dsimp only
    rw [truncatedResultDisplayStr_nil ath tw alt]
    simp [jsFalsyPayload]
  · unfold dispatch
    simp [jsFalsyPayload]

/-- Counterexample to C8 as stated: an empty-object payload does not
produce the render-nothing instruction — the falsiness check `!{}` is
false in JS, so `{}` reaches the styled-document branch. -/
theorem c8_empty_object_counterexample :
    dispatch .emptyObj (some 20) 80 false true ≠ .nothing ∧
    dispatch .emptyObj (some 20) 80 false true = .ansiRenderInvalid := by
  refine ⟨by decide, by decide⟩
